import Mathlib

/-!
Verification of the `IsingSimulation` class from `Classwork/12.2.ipynb`
(2D Ising model, single-spin-flip Metropolis Monte Carlo).

The lattice is an `N × N` grid with toroidal (wrap-around) indexing, so rows
and columns are indexed by `ZMod N`: Python's `(i + 1) % self.size` is exactly
addition in `ZMod N`.  Spins are integers (the code draws them from `{-1, +1}`).
The interaction constant `J` and Boltzmann constant `kB` are exact rationals
standing for the source's literals.  The temperature is a real number (a Python
float in the source).  The two sources of randomness — the cell chosen by
`scipy.random.randint` and the draw of `scipy.random.uniform(0, 1)` — are
passed to `update` as explicit arguments.
-/

namespace Ising

/-- Interaction constant for iron, in Joule: the source's `J = 6.34369e-21`. -/
def J : ℚ := 634369 / 10 ^ 26

/-- Boltzmann constant in Joule per Kelvin: the source's `kB = 1.38065e-23`. -/
def kB : ℚ := 138065 / 10 ^ 28

/-- State of one `IsingSimulation` instance of grid side `N`: the lattice
`self.state`, the temperature `self.temperature` and the counter `self.step`. -/
structure IsingSimulation (N : ℕ) where
  state : ZMod N → ZMod N → ℤ
  temperature : ℝ
  step : ℕ

/-- Construction, `__init__(self, size, temperature=300)`: the lattice is
filled with `scipy.random.choice([-1, +1], size=(size, size))`; the random
draw is passed in as a Boolean table `coin`, each cell becoming `+1` or `-1`.
The step counter starts at `0`. -/
def init (N : ℕ) (temperature : ℝ) (coin : ZMod N → ZMod N → Bool) :
    IsingSimulation N :=
  { state := fun i j => if coin i j then 1 else -1
    temperature := temperature
    step := 0 }

/-- Method `set_temperature(self, temp)`: stores `float(temp)` and nothing
else (`float` on a real number is the identity in this model). -/
def set_temperature {N : ℕ} (sim : IsingSimulation N) (temp : ℝ) :
    IsingSimulation N :=
  { sim with temperature := temp }

/-- Method `energy(self)`: the source computes
`-J * (state * (roll(state, 1, axis=0) + roll(state, 1, axis=1))).sum()`.
`scipy.roll(state, 1, axis=0)[i, j]` is `state[(i - 1) % N, j]`, and
`roll(state, 1, axis=1)[i, j]` is `state[i, (j - 1) % N]`. -/
def energy {N : ℕ} [NeZero N] (sim : IsingSimulation N) : ℚ :=
  -J * ∑ i : ZMod N, ∑ j : ZMod N,
    (sim.state i j * (sim.state (i - 1) j + sim.state i (j - 1)) : ℚ)

/-- Method `average_magnetism(self)`: `self.state.mean()`, the sum of all
cells divided by the number `N²` of cells. -/
def average_magnetism {N : ℕ} [NeZero N] (sim : IsingSimulation N) : ℚ :=
  (∑ i : ZMod N, ∑ j : ZMod N, (sim.state i j : ℚ)) / (N ^ 2 : ℚ)

/-- Energy change computed inside `update`:
`delta_E = 2 * J * state[i,j] * (state[(i+1)%N, j] + state[(i-1)%N, j] +
state[i, (j+1)%N] + state[i, (j-1)%N])`. -/
def delta_E {N : ℕ} (sim : IsingSimulation N) (i j : ZMod N) : ℚ :=
  2 * J * sim.state i j *
    (sim.state (i + 1) j + sim.state (i - 1) j +
     sim.state i (j + 1) + sim.state i (j - 1))

/-- Acceptance condition of the Metropolis trial: the source accepts when
`scipy.log(scipy.random.uniform(0, 1)) < log_p` with
`log_p = -delta_E / (self.temperature * self.kB)`; `u` is the uniform draw. -/
def accepts {N : ℕ} (sim : IsingSimulation N) (i j : ZMod N) (u : ℝ) : Prop :=
  Real.log u < -(delta_E sim i j : ℝ) / (sim.temperature * (kB : ℝ))

/-- Lattice after the in-place assignment `state[i,j] = -state[i,j]`. -/
def flip {N : ℕ} (state : ZMod N → ZMod N → ℤ) (i j : ZMod N) :
    ZMod N → ZMod N → ℤ :=
  fun p q => if p = i ∧ q = j then -state p q else state p q

open Classical in
/-- Method `update(self)`: one Metropolis trial at the randomly chosen cell
`(i, j)` with uniform draw `u`.  The flip is applied exactly when the
acceptance comparison holds, and `self.step += 1` runs unconditionally. -/
noncomputable def update {N : ℕ} (sim : IsingSimulation N) (i j : ZMod N)
    (u : ℝ) : IsingSimulation N :=
  if accepts sim i j u then
    { sim with state := flip sim.state i j, step := sim.step + 1 }
  else
    { sim with step := sim.step + 1 }

/-- Iterated updates: one `update` per element of `moves`, each element
carrying that trial's random cell and uniform draw. -/
noncomputable def updates {N : ℕ} (sim : IsingSimulation N)
    (moves : List (ZMod N × ZMod N × ℝ)) : IsingSimulation N :=
  moves.foldl (fun s m => update s m.1 m.2.1 m.2.2) sim

/-- Spin invariant: every cell of the lattice is exactly `-1` or `+1`. -/
def spins_pm_one {N : ℕ} (sim : IsingSimulation N) : Prop :=
  ∀ i j : ZMod N, sim.state i j = 1 ∨ sim.state i j = -1

/-- Simulator whose lattice is all `+1`, used as a concrete test state. -/
def allPlus (N : ℕ) : IsingSimulation N :=
  { state := fun _ _ => 1, temperature := 300, step := 0 }

/-- Checkerboard simulator: cell `(i, j)` is `+1` when `i + j` is even. -/
def checkerboard (N : ℕ) : IsingSimulation N :=
  { state := fun i j => if (i.val + j.val) % 2 = 0 then 1 else -1
    temperature := 300
    step := 0 }

/-- Reindexing a sum over `ZMod N` by the shift `i ↦ i - 1`. -/
lemma sum_shift {N : ℕ} [NeZero N] (f : ZMod N → ℚ) :
    ∑ i : ZMod N, f (i - 1) = ∑ i : ZMod N, f i :=
  Fintype.sum_equiv (Equiv.subRight (1 : ZMod N)) (fun i => f (i - 1)) f
    (fun _ => rfl)

/-- C1: for every N×N lattice state with all cells in {-1, +1}, `energy`
returns exactly −J · Σ over all cells (i, j) of
spin(i,j) · [spin((i+1) mod N, j) + spin(i, (j+1) mod N)], the
down/right-neighbour edge sum under toroidal wrap-around; the roll-based
expression, which pairs each cell with its (i−1) mod N and (j−1) mod N
neighbours, equals this by reindexing the sum. -/
theorem C1_energy_down_right {N : ℕ} [NeZero N] (sim : IsingSimulation N)
    (_hpm : spins_pm_one sim) :
    energy sim = -J * ∑ i : ZMod N, ∑ j : ZMod N,
      (sim.state i j * (sim.state (i + 1) j + sim.state i (j + 1)) : ℚ) := by
  unfold energy
  congr 1
  set s := sim.state with hs
  have hrow : ∑ i : ZMod N, ∑ j : ZMod N, (s i j * s (i - 1) j : ℚ)
      = ∑ i : ZMod N, ∑ j : ZMod N, (s (i + 1) j * s i j : ℚ) := by
    rw [← sum_shift (fun i => ∑ j : ZMod N, (s (i + 1) j * s i j : ℚ))]
    simp [sub_add_cancel]
  have hcol : ∀ i : ZMod N, ∑ j : ZMod N, (s i j * s i (j - 1) : ℚ)
      = ∑ j : ZMod N, (s i (j + 1) * s i j : ℚ) := by
    intro i
    rw [← sum_shift (fun j => (s i (j + 1) * s i j : ℚ))]
    simp [sub_add_cancel]
  calc ∑ i : ZMod N, ∑ j : ZMod N, (s i j * (s (i - 1) j + s i (j - 1)) : ℚ)
      = (∑ i : ZMod N, ∑ j : ZMod N, (s i j * s (i - 1) j : ℚ))
        + ∑ i : ZMod N, ∑ j : ZMod N, (s i j * s i (j - 1) : ℚ) := by
        simp [mul_add, Finset.sum_add_distrib]
    _ = (∑ i : ZMod N, ∑ j : ZMod N, (s (i + 1) j * s i j : ℚ))
        + ∑ i : ZMod N, ∑ j : ZMod N, (s i (j + 1) * s i j : ℚ) := by
        rw [hrow]
        congr 1
        exact Finset.sum_congr rfl fun i _ => hcol i
    _ = ∑ i : ZMod N, ∑ j : ZMod N, (s i j * (s (i + 1) j + s i (j + 1)) : ℚ) := by
        rw [← Finset.sum_add_distrib]
        refine Finset.sum_congr rfl fun i _ => ?_
        rw [← Finset.sum_add_distrib]
        refine Finset.sum_congr rfl fun j _ => ?_
        ring

/-- Witness for C1: the all-`+1` 2×2 lattice satisfies the spin invariant and
its roll-based energy equals the down/right-neighbour form. -/
theorem C1_energy_down_right_witness :
    spins_pm_one (allPlus 2) ∧
      energy (allPlus 2) = -J * ∑ i : ZMod 2, ∑ j : ZMod 2,
        ((allPlus 2).state i j *
          ((allPlus 2).state (i + 1) j + (allPlus 2).state i (j + 1)) : ℚ) := by
  have hpm : spins_pm_one (allPlus 2) := by
    intro i j; left; rfl
  exact ⟨hpm, C1_energy_down_right (allPlus 2) hpm⟩

/-- Value of `-1 : ZMod N` as a natural number, for any positive modulus. -/
lemma val_neg_one_general {N : ℕ} [NeZero N] : (-1 : ZMod N).val = N - 1 := by
  have hpos : 0 < N := Nat.pos_of_ne_zero (NeZero.ne N)
  have h1 : ((N - 1 : ℕ) : ZMod N) = (-1 : ZMod N) := by
    have hadd : ((N - 1 : ℕ) : ZMod N) + 1 = 0 := by
      have h2 : (((N - 1) + 1 : ℕ) : ZMod N) = ((N : ℕ) : ZMod N) := by
        rw [Nat.sub_add_cancel hpos]
      push_cast at h2
      simpa [ZMod.natCast_self] using h2
    exact eq_neg_of_add_eq_zero_left hadd
  rw [← h1, ZMod.val_cast_of_lt (by omega : N - 1 < N)]

/-- Stepping one row or column back flips the parity of the index when the
grid side is even. -/
lemma val_sub_one_mod_two {N : ℕ} [NeZero N] (hN : 2 ∣ N) (i : ZMod N) :
    (i - 1).val % 2 = (i.val + 1) % 2 := by
  have h : (i - 1).val = (i.val + (N - 1)) % N := by
    rw [sub_eq_add_neg, ZMod.val_add, val_neg_one_general]
  rw [h, Nat.mod_mod_of_dvd _ hN]
  obtain ⟨k, hk⟩ := hN
  have hpos : 0 < N := Nat.pos_of_ne_zero (NeZero.ne N)
  omega

/-- On an even-sided checkerboard, the cell one row up is anti-aligned. -/
lemma checkerboard_row {N : ℕ} [NeZero N] (hN : 2 ∣ N) (i j : ZMod N) :
    (checkerboard N).state (i - 1) j = -(checkerboard N).state i j := by
  have h := val_sub_one_mod_two hN i
  unfold checkerboard
  by_cases hc : (i.val + j.val) % 2 = 0
  · have h1 : ((i - 1).val + j.val) % 2 ≠ 0 := by omega
    simp [hc, h1]
  · have h1 : ((i - 1).val + j.val) % 2 = 0 := by omega
    simp [hc, h1]

/-- On an even-sided checkerboard, the cell one column left is anti-aligned. -/
lemma checkerboard_col {N : ℕ} [NeZero N] (hN : 2 ∣ N) (i j : ZMod N) :
    (checkerboard N).state i (j - 1) = -(checkerboard N).state i j := by
  have h := val_sub_one_mod_two hN j
  unfold checkerboard
  by_cases hc : (i.val + j.val) % 2 = 0
  · have h1 : (i.val + (j - 1).val) % 2 ≠ 0 := by omega
    simp [hc, h1]
  · have h1 : (i.val + (j - 1).val) % 2 = 0 := by omega
    simp [hc, h1]

/-- C8: for every N ≥ 1, `energy` on the all-+1 N×N lattice returns
−J·2·N²; and for every even N, `energy` on the checkerboard lattice
(cell (i, j) = +1 exactly when i + j is even) returns +J·2·N². -/
theorem C8_energy_special_values {N : ℕ} [NeZero N] :
    energy (allPlus N) = -J * 2 * (N : ℚ) ^ 2 ∧
      (Even N → energy (checkerboard N) = J * 2 * (N : ℚ) ^ 2) := by
  constructor
  · unfold energy allPlus
    simp [Finset.sum_const, Finset.card_univ, ZMod.card]
    ring
  · intro hEv
    have hN : 2 ∣ N := hEv.two_dvd
    have hsummand : ∀ i j : ZMod N,
        ((checkerboard N).state i j *
          ((checkerboard N).state (i - 1) j + (checkerboard N).state i (j - 1)) : ℚ)
          = -2 := by
      intro i j
      rw [checkerboard_row hN, checkerboard_col hN]
      have hpm : (checkerboard N).state i j = 1 ∨ (checkerboard N).state i j = -1 := by
        unfold checkerboard
        by_cases hc : (i.val + j.val) % 2 = 0 <;> simp [hc]
      rcases hpm with h | h <;> rw [h] <;> norm_num
    have hsum : ∑ i : ZMod N, ∑ j : ZMod N,
        ((checkerboard N).state i j *
          ((checkerboard N).state (i - 1) j + (checkerboard N).state i (j - 1)) : ℚ)
          = -2 * (N : ℚ) ^ 2 := by
      calc ∑ i : ZMod N, ∑ j : ZMod N,
            ((checkerboard N).state i j *
              ((checkerboard N).state (i - 1) j + (checkerboard N).state i (j - 1)) : ℚ)
          = ∑ _i : ZMod N, ∑ _j : ZMod N, (-2 : ℚ) :=
            Finset.sum_congr rfl fun i _ => Finset.sum_congr rfl fun j _ => hsummand i j
        _ = -2 * (N : ℚ) ^ 2 := by
            simp [Finset.sum_const, Finset.card_univ, ZMod.card]
            ring
    unfold energy
    rw [hsum]
    ring

/-- Witness for C8 at N = 2: the all-+1 lattice has energy −J·2·4 and the
checkerboard lattice has energy +J·2·4. -/
theorem C8_energy_special_values_witness :
    energy (allPlus 2) = -J * 2 * (2 : ℚ) ^ 2 ∧
      energy (checkerboard 2) = J * 2 * (2 : ℚ) ^ 2 :=
  ⟨(C8_energy_special_values (N := 2)).1,
    (C8_energy_special_values (N := 2)).2 (by decide)⟩

/-- Flipping the chosen cell negates it. -/
lemma flip_same {N : ℕ} (s : ZMod N → ZMod N → ℤ) (i j : ZMod N) :
    flip s i j i j = -s i j := by simp [flip]

/-- Flipping the chosen cell leaves every other cell unchanged. -/
lemma flip_other {N : ℕ} (s : ZMod N → ZMod N → ℤ) (i j p q : ZMod N)
    (h : ¬(p = i ∧ q = j)) : flip s i j p q = s p q := by simp [flip, h]

/-- Cell-by-cell difference of the energy summands before and after a flip:
only the three cells whose roll-based summand mentions cell `(i, j)` change,
and their contributions add up to `-2·s(i,j)·(sum of the four neighbours)`.
Requires `2 ≤ N` so that the three cells are pairwise distinct and no cell is
its own neighbour. -/
lemma sum_flip_diff {N : ℕ} [NeZero N] (hN : 2 ≤ N) (s : ZMod N → ZMod N → ℤ)
    (i j : ZMod N) :
    (∑ p : ZMod N × ZMod N,
        ((flip s i j p.1 p.2 *
          (flip s i j (p.1 - 1) p.2 + flip s i j p.1 (p.2 - 1)) : ℚ)
         - (s p.1 p.2 * (s (p.1 - 1) p.2 + s p.1 (p.2 - 1)) : ℚ)))
      = -2 * (s i j : ℚ) *
          ((s (i + 1) j : ℚ) + (s (i - 1) j : ℚ)
            + (s i (j + 1) : ℚ) + (s i (j - 1) : ℚ)) := by
  haveI : Fact (1 < N) := ⟨hN⟩
  have hone : (1 : ZMod N) ≠ 0 := one_ne_zero
  have hsucc : ∀ a : ZMod N, a + 1 ≠ a := fun a h => hone (self_eq_add_right.mp h.symm)
  have hpred : ∀ a : ZMod N, a - 1 ≠ a := fun a h => hone (sub_eq_self.mp h)
  set d : ZMod N × ZMod N → ℚ := fun p =>
    (flip s i j p.1 p.2 *
      (flip s i j (p.1 - 1) p.2 + flip s i j p.1 (p.2 - 1)) : ℚ)
     - (s p.1 p.2 * (s (p.1 - 1) p.2 + s p.1 (p.2 - 1)) : ℚ) with hd
  have hzero : ∀ p ∈ Finset.univ,
      p ∉ ({(i, j), (i + 1, j), (i, j + 1)} : Finset (ZMod N × ZMod N)) → d p = 0 := by
    intro p _ hp
    simp only [Finset.mem_insert, Finset.mem_singleton] at hp
    push_neg at hp
    obtain ⟨h1, h2, h3⟩ := hp
    have e1 : flip s i j p.1 p.2 = s p.1 p.2 := by
      refine flip_other s i j _ _ fun h => h1 ?_
      exact Prod.ext h.1 h.2
    have e2 : flip s i j (p.1 - 1) p.2 = s (p.1 - 1) p.2 := by
      refine flip_other s i j _ _ fun h => h2 ?_
      exact Prod.ext (by rw [← h.1]; ring) h.2
    have e3 : flip s i j p.1 (p.2 - 1) = s p.1 (p.2 - 1) := by
      refine flip_other s i j _ _ fun h => h3 ?_
      exact Prod.ext h.1 (by rw [← h.2]; ring)
    simp [hd, e1, e2, e3]
  have hsubset : (∑ p ∈ ({(i, j), (i + 1, j), (i, j + 1)} : Finset (ZMod N × ZMod N)), d p)
      = ∑ p : ZMod N × ZMod N, d p :=
    Finset.sum_subset (Finset.subset_univ _) hzero
  have hne1 : ((i, j) : ZMod N × ZMod N) ∉
      ({(i + 1, j), (i, j + 1)} : Finset (ZMod N × ZMod N)) := by
    intro hmem
    rcases Finset.mem_insert.mp hmem with h | h
    · exact hsucc i (congrArg Prod.fst h).symm
    · exact hsucc j (congrArg Prod.snd (Finset.mem_singleton.mp h)).symm
  have hne2 : ((i + 1, j) : ZMod N × ZMod N) ∉
      ({(i, j + 1)} : Finset (ZMod N × ZMod N)) := by
    intro hmem
    exact hsucc i (congrArg Prod.fst (Finset.mem_singleton.mp hmem))
  rw [← hsubset, Finset.sum_insert hne1, Finset.sum_insert hne2, Finset.sum_singleton]
  have d1 : d (i, j) = -2 * (s i j : ℚ) * ((s (i - 1) j : ℚ) + (s i (j - 1) : ℚ)) := by
    have e1 : flip s i j i j = -s i j := flip_same s i j
    have e2 : flip s i j (i - 1) j = s (i - 1) j :=
      flip_other s i j _ _ fun h => hpred i h.1
    have e3 : flip s i j i (j - 1) = s i (j - 1) :=
      flip_other s i j _ _ fun h => hpred j h.2
    simp only [hd, e1, e2, e3]
    push_cast
    ring
  have d2 : d (i + 1, j) = -2 * (s i j : ℚ) * (s (i + 1) j : ℚ) := by
    have e1 : flip s i j (i + 1) j = s (i + 1) j :=
      flip_other s i j _ _ fun h => hsucc i h.1
    have e3 : flip s i j (i + 1) (j - 1) = s (i + 1) (j - 1) :=
      flip_other s i j _ _ fun h => hsucc i h.1
    simp only [hd, add_sub_cancel_right, e1, e3, flip_same]
    push_cast
    ring
  have d3 : d (i, j + 1) = -2 * (s i j : ℚ) * (s i (j + 1) : ℚ) := by
    have e1 : flip s i j i (j + 1) = s i (j + 1) :=
      flip_other s i j _ _ fun h => hsucc j h.2
    have e2 : flip s i j (i - 1) (j + 1) = s (i - 1) (j + 1) :=
      flip_other s i j _ _ fun h => hsucc j h.2
    simp only [hd, add_sub_cancel_right, e1, e2, flip_same]
    push_cast
    ring
  rw [d1, d2, d3]
  ring

/-- C6 (amended to grid side at least 2): for every lattice state and chosen
cell (i, j), the energy change of `update` equals
2·J·spin(i,j)·(spin(i+1,j) + spin(i−1,j) + spin(i,j+1) + spin(i,j−1)) with
indices wrapped modulo N, and equals the difference
energy(after flipping (i,j)) − energy(before). -/
theorem C6_delta_E_neighbors {N : ℕ} [NeZero N] (hN : 2 ≤ N)
    (sim : IsingSimulation N) (i j : ZMod N) :
    delta_E sim i j = 2 * J * (sim.state i j : ℚ) *
        ((sim.state (i + 1) j : ℚ) + (sim.state (i - 1) j : ℚ)
          + (sim.state i (j + 1) : ℚ) + (sim.state i (j - 1) : ℚ)) ∧
      delta_E sim i j =
        energy { sim with state := flip sim.state i j } - energy sim := by
  refine ⟨rfl, ?_⟩
  have hdiff := sum_flip_diff hN sim.state i j
  have h1 : energy { sim with state := flip sim.state i j } - energy sim
      = -J * (∑ p : ZMod N × ZMod N,
          ((flip sim.state i j p.1 p.2 *
            (flip sim.state i j (p.1 - 1) p.2 + flip sim.state i j p.1 (p.2 - 1)) : ℚ)
           - (sim.state p.1 p.2 * (sim.state (p.1 - 1) p.2 + sim.state p.1 (p.2 - 1)) : ℚ))) := by
    unfold energy
    simp only [Fintype.sum_prod_type, Finset.sum_sub_distrib]
    ring
  rw [h1, hdiff]
  unfold delta_E
  ring

/-- Witness for C6 at N = 2 on the all-+1 lattice at cell (0, 0). -/
theorem C6_delta_E_neighbors_witness :
    delta_E (allPlus 2) 0 0 = 2 * J * ((allPlus 2).state 0 0 : ℚ) *
        (((allPlus 2).state (0 + 1) 0 : ℚ) + ((allPlus 2).state (0 - 1) 0 : ℚ)
          + ((allPlus 2).state 0 (0 + 1) : ℚ) + ((allPlus 2).state 0 (0 - 1) : ℚ)) ∧
      delta_E (allPlus 2) 0 0 =
        energy { allPlus 2 with state := flip (allPlus 2).state 0 0 }
          - energy (allPlus 2) :=
  C6_delta_E_neighbors (by norm_num) (allPlus 2) 0 0

/-- Counterexample to C6 as stated: on the 1×1 all-+1 lattice the computed
energy change at cell (0, 0) is 8·J ≠ 0, while flipping the unique cell does
not change the energy at all. -/
theorem C6_counterexample :
    ¬ (delta_E (allPlus 1) 0 0 =
        energy { allPlus 1 with state := flip (allPlus 1).state 0 0 }
          - energy (allPlus 1)) := by
  have hL : delta_E (allPlus 1) 0 0 = 8 * J := by
    unfold delta_E allPlus
    push_cast
    ring
  have hflip : ∀ p q : ZMod 1, flip (allPlus 1).state 0 0 p q = -1 := by
    intro p q
    have hp : p = 0 := Subsingleton.elim p 0
    have hq : q = 0 := Subsingleton.elim q 0
    rw [hp, hq]
    simp [flip, allPlus]
  have hR : energy { allPlus 1 with state := flip (allPlus 1).state 0 0 }
      - energy (allPlus 1) = 0 := by
    unfold energy
    simp only [hflip]
    simp [allPlus]
  rw [hL, hR]
  norm_num [J]

/-- C2: `update` accepts the proposed flip (negating spin(i, j)) exactly when
log u < −ΔE/(temperature·kB) for the uniform draw u; for u in (0, 1) this
comparison is equivalent to u < exp(−ΔE/(kB·T)), the pointwise form of
accepting with probability min(1, exp(−ΔE/(kB·T))); and any flip with
ΔE ≤ 0 (energy-decreasing or neutral) is always accepted. -/
theorem C2_metropolis_acceptance {N : ℕ} (sim : IsingSimulation N)
    (hpm : spins_pm_one sim) (i j : ZMod N) (u : ℝ)
    (hu0 : 0 < u) (hu1 : u < 1) (hT : 0 < sim.temperature) :
    ((update sim i j u).state i j = -sim.state i j ↔ accepts sim i j u) ∧
      (accepts sim i j u ↔
        u < Real.exp (-(delta_E sim i j : ℝ) / (sim.temperature * (kB : ℝ)))) ∧
      (delta_E sim i j ≤ 0 → accepts sim i j u) := by
  refine ⟨?_, ?_, ?_⟩
  · unfold update
    by_cases h : accepts sim i j u
    · rw [if_pos h]
      show flip sim.state i j i j = -sim.state i j ↔ accepts sim i j u
      rw [flip_same]
      exact iff_of_true rfl h
    · rw [if_neg h]
      show sim.state i j = -sim.state i j ↔ accepts sim i j u
      refine iff_of_false ?_ h
      rcases hpm i j with h1 | h1 <;> rw [h1] <;> decide
  · unfold accepts
    exact Real.log_lt_iff_lt_exp hu0
  · intro hdE
    have hkB : (0 : ℝ) < (kB : ℝ) := by
      unfold kB
      push_cast
      norm_num
    have hnum : (0 : ℝ) ≤ -(delta_E sim i j : ℝ) := by
      have h0 : (delta_E sim i j : ℝ) ≤ 0 := by exact_mod_cast hdE
      linarith
    have hc : (0 : ℝ) ≤ -(delta_E sim i j : ℝ) / (sim.temperature * (kB : ℝ)) :=
      div_nonneg hnum (le_of_lt (mul_pos hT hkB))
    exact lt_of_lt_of_le (Real.log_neg hu0 hu1) hc

/-- Witness for C2: the all-+1 2×2 lattice at temperature 300, cell (0, 0),
uniform draw 1/2. -/
theorem C2_metropolis_acceptance_witness :
    ((update (allPlus 2) 0 0 (1 / 2)).state 0 0 = -(allPlus 2).state 0 0 ↔
        accepts (allPlus 2) 0 0 (1 / 2)) ∧
      (accepts (allPlus 2) 0 0 (1 / 2) ↔
        (1 / 2 : ℝ) < Real.exp (-(delta_E (allPlus 2) 0 0 : ℝ) /
          ((allPlus 2).temperature * (kB : ℝ)))) ∧
      (delta_E (allPlus 2) 0 0 ≤ 0 → accepts (allPlus 2) 0 0 (1 / 2)) :=
  C2_metropolis_acceptance (allPlus 2) (fun _ _ => Or.inl rfl) 0 0 (1 / 2)
    (by norm_num) (by norm_num) (by norm_num [allPlus])

/-- Counterexample to C3 as stated: the code performs no validation, so
`set_temperature` with the non-positive value −1 succeeds and stores −1, and
construction with temperature −1 likewise succeeds and stores −1 — no
"invalid configuration" error exists anywhere in the source. -/
theorem C3_counterexample :
    (set_temperature (allPlus 2) (-1)).temperature = -1 ∧
      (init 2 (-1) (fun _ _ => true)).temperature = -1 :=
  ⟨rfl, rfl⟩

/-- C3 (amended): construction and `set_temperature` accept every temperature
value, including non-positive ones, without raising any error: the value is
stored as given and `set_temperature` changes no other field. -/
theorem C3_no_validation {N : ℕ} (sim : IsingSimulation N) (t : ℝ)
    (temp0 : ℝ) (coin : ZMod N → ZMod N → Bool) :
    (set_temperature sim t).temperature = t ∧
      (set_temperature sim t).state = sim.state ∧
      (set_temperature sim t).step = sim.step ∧
      (init N temp0 coin).temperature = temp0 :=
  ⟨rfl, rfl, rfl, rfl⟩

/-- Flipping one cell of a ±1 lattice leaves every cell in {−1, +1}. -/
lemma flip_spins {N : ℕ} {s : ZMod N → ZMod N → ℤ} (i j : ZMod N)
    (hpm : ∀ p q, s p q = 1 ∨ s p q = -1) :
    ∀ p q, flip s i j p q = 1 ∨ flip s i j p q = -1 := by
  intro p q
  unfold flip
  by_cases h : p = i ∧ q = j
  · rw [if_pos h]
    rcases hpm p q with h1 | h1 <;> rw [h1] <;> simp
  · rw [if_neg h]
    exact hpm p q

/-- A single Metropolis trial preserves the spin invariant. -/
lemma update_spins {N : ℕ} (sim : IsingSimulation N) (i j : ZMod N) (u : ℝ)
    (hpm : spins_pm_one sim) : spins_pm_one (update sim i j u) := by
  unfold update
  split
  · exact flip_spins i j hpm
  · exact hpm

/-- Any sequence of Metropolis trials preserves the spin invariant. -/
lemma updates_spins {N : ℕ} (sim : IsingSimulation N)
    (moves : List (ZMod N × ZMod N × ℝ)) (hpm : spins_pm_one sim) :
    spins_pm_one (updates sim moves) := by
  induction moves generalizing sim with
  | nil => exact hpm
  | cons m rest ih => exact ih (update sim m.1 m.2.1 m.2.2) (update_spins _ _ _ _ hpm)

/-- C4: every cell is exactly −1 or +1 immediately after construction, and
the invariant is preserved by every sequence of `update` calls and by
`set_temperature`. -/
theorem C4_spin_invariant {N : ℕ} (temp : ℝ) (coin : ZMod N → ZMod N → Bool)
    (sim : IsingSimulation N) (hpm : spins_pm_one sim)
    (moves : List (ZMod N × ZMod N × ℝ)) (t : ℝ) :
    spins_pm_one (init N temp coin) ∧
      spins_pm_one (updates sim moves) ∧
      spins_pm_one (set_temperature sim t) := by
  refine ⟨?_, updates_spins sim moves hpm, hpm⟩
  intro i j
  show (if coin i j = true then (1 : ℤ) else -1) = 1 ∨
    (if coin i j = true then (1 : ℤ) else -1) = -1
  by_cases h : coin i j = true
  · rw [if_pos h]
    exact Or.inl rfl
  · rw [if_neg h]
    exact Or.inr rfl

/-- Witness for C4: the all-+1 2×2 lattice, one trial at cell (0, 0). -/
theorem C4_spin_invariant_witness :
    spins_pm_one (init 2 300 (fun _ _ => true)) ∧
      spins_pm_one (updates (allPlus 2) [(0, 0, 1 / 2)]) ∧
      spins_pm_one (set_temperature (allPlus 2) 400) :=
  C4_spin_invariant 300 (fun _ _ => true) (allPlus 2)
    (fun _ _ => Or.inl rfl) [(0, 0, 1 / 2)] 400

/-- One trial increments the step counter whether or not the flip is taken. -/
lemma update_step {N : ℕ} (sim : IsingSimulation N) (i j : ZMod N) (u : ℝ) :
    (update sim i j u).step = sim.step + 1 := by
  unfold update
  split <;> rfl

/-- C5: after k calls to `update` the step counter equals its initial value
plus k, regardless of acceptance or rejection of each trial, and construction
sets the counter to 0. -/
theorem C5_step_counter {N : ℕ} (sim : IsingSimulation N)
    (moves : List (ZMod N × ZMod N × ℝ)) (temp : ℝ)
    (coin : ZMod N → ZMod N → Bool) :
    (updates sim moves).step = sim.step + moves.length ∧
      (init N temp coin).step = 0 := by
  refine ⟨?_, rfl⟩
  induction moves generalizing sim with
  | nil => rfl
  | cons m rest ih =>
      show (updates (update sim m.1 m.2.1 m.2.2) rest).step
        = sim.step + (rest.length + 1)
      rw [ih, update_step]
      omega

/-- C7: one `update` call changes at most the chosen cell (i, j), and only by
negation; every other cell and the temperature are unchanged (the grid side N
is fixed by the state type itself). -/
theorem C7_frame {N : ℕ} (sim : IsingSimulation N) (i j : ZMod N) (u : ℝ) :
    ((update sim i j u).state i j = sim.state i j ∨
        (update sim i j u).state i j = -sim.state i j) ∧
      (∀ p q : ZMod N, ¬(p = i ∧ q = j) →
        (update sim i j u).state p q = sim.state p q) ∧
      (update sim i j u).temperature = sim.temperature := by
  unfold update
  split
  · exact ⟨Or.inr (flip_same sim.state i j),
      fun p q h => flip_other sim.state i j p q h, rfl⟩
  · exact ⟨Or.inl rfl, fun p q _ => rfl, rfl⟩

/-- Witness for C7: all-+1 2×2 lattice, trial at (0, 0); cell (1, 1) is
untouched. -/
theorem C7_frame_witness :
    ((update (allPlus 2) 0 0 (1 / 2)).state 0 0 = (allPlus 2).state 0 0 ∨
        (update (allPlus 2) 0 0 (1 / 2)).state 0 0 = -(allPlus 2).state 0 0) ∧
      (update (allPlus 2) 0 0 (1 / 2)).state 1 1 = (allPlus 2).state 1 1 ∧
      (update (allPlus 2) 0 0 (1 / 2)).temperature = (allPlus 2).temperature := by
  obtain ⟨h1, h2, h3⟩ := C7_frame (allPlus 2) 0 0 (1 / 2)
  exact ⟨h1, h2 1 1 (by decide), h3⟩

/-- C9: `average_magnetism` returns the arithmetic mean of all cell values,
and for a lattice with all cells in {−1, +1} that value lies in [−1, +1]. -/
theorem C9_average_magnetism {N : ℕ} [NeZero N] (sim : IsingSimulation N)
    (hpm : spins_pm_one sim) :
    average_magnetism sim
        = (∑ i : ZMod N, ∑ j : ZMod N, (sim.state i j : ℚ)) / (N ^ 2 : ℚ) ∧
      -1 ≤ average_magnetism sim ∧ average_magnetism sim ≤ 1 := by
  have hpos : (0 : ℚ) < (N : ℚ) ^ 2 := by
    have hN : 0 < N := Nat.pos_of_ne_zero (NeZero.ne N)
    positivity
  have habs : ∀ i j : ZMod N, -1 ≤ (sim.state i j : ℚ) ∧ (sim.state i j : ℚ) ≤ 1 := by
    intro i j
    rcases hpm i j with h | h <;> rw [h] <;> norm_num
  have hupper : (∑ i : ZMod N, ∑ j : ZMod N, (sim.state i j : ℚ)) ≤ (N : ℚ) ^ 2 := by
    calc (∑ i : ZMod N, ∑ j : ZMod N, (sim.state i j : ℚ))
        ≤ ∑ _i : ZMod N, ∑ _j : ZMod N, (1 : ℚ) :=
          Finset.sum_le_sum fun i _ =>
            Finset.sum_le_sum fun j _ => (habs i j).2
      _ = (N : ℚ) ^ 2 := by
          simp [Finset.sum_const, Finset.card_univ, ZMod.card]
          ring
  have hlower : -((N : ℚ) ^ 2) ≤ ∑ i : ZMod N, ∑ j : ZMod N, (sim.state i j : ℚ) := by
    calc -((N : ℚ) ^ 2)
        = ∑ _i : ZMod N, ∑ _j : ZMod N, (-1 : ℚ) := by
          simp [Finset.sum_const, Finset.card_univ, ZMod.card]
          ring
      _ ≤ ∑ i : ZMod N, ∑ j : ZMod N, (sim.state i j : ℚ) :=
          Finset.sum_le_sum fun i _ =>
            Finset.sum_le_sum fun j _ => (habs i j).1
  refine ⟨rfl, ?_, ?_⟩
  · unfold average_magnetism
    rw [le_div_iff₀ hpos]
    linarith
  · unfold average_magnetism
    rw [div_le_one hpos]
    exact hupper

/-- Witness for C9: the all-+1 2×2 lattice has mean magnetism (sum)/4 within
[−1, +1]. -/
theorem C9_average_magnetism_witness :
    average_magnetism (allPlus 2)
        = (∑ i : ZMod 2, ∑ j : ZMod 2, ((allPlus 2).state i j : ℚ)) / (2 ^ 2 : ℚ) ∧
      -1 ≤ average_magnetism (allPlus 2) ∧ average_magnetism (allPlus 2) ≤ 1 := by
  have h := C9_average_magnetism (allPlus 2) (fun _ _ => Or.inl rfl)
  exact_mod_cast h

/-- C10: `energy` and `average_magnetism` are deterministic functions of the
lattice alone: states with identical lattices but different temperatures or
step counters give identical results (both are pure functions in this model,
so neither modifies any field). -/
theorem C10_observables_pure {N : ℕ} [NeZero N]
    (sim1 sim2 : IsingSimulation N) (hstate : sim1.state = sim2.state) :
    energy sim1 = energy sim2 ∧
      average_magnetism sim1 = average_magnetism sim2 := by
  unfold energy average_magnetism
  rw [hstate]
  exact ⟨rfl, rfl⟩

/-- Witness for C10: same all-+1 lattice, different temperature and step. -/
theorem C10_observables_pure_witness :
    energy (allPlus 2)
        = energy { state := (allPlus 2).state, temperature := 7, step := 42 } ∧
      average_magnetism (allPlus 2)
        = average_magnetism { state := (allPlus 2).state, temperature := 7, step := 42 } :=
  C10_observables_pure (allPlus 2)
    { state := (allPlus 2).state, temperature := 7, step := 42 } rfl

end Ising
